import Mathlib

/-!
Verification of the DNAFL scraper (src/scraper.py) against its
natural-language specification.  Text values are modelled as `List Char`
so that every operation is executable and kernel-decidable; pandas
DataFrames become lists of fixed-schema records; the external fuzzy date
parser (stage three of `pd.to_datetime`) is an explicit function
parameter constrained only to return valid calendar dates.
-/

namespace DNAFL

/-- Text values: Python strings, modelled as lists of characters. -/
abbrev Str := List Char

/-- Conversion from Lean string literals for concrete test inputs. -/
def str (s : String) : Str := s.toList

/-- Whitespace test used by Python `str.strip` and the regex `\s`. -/
def isWS (c : Char) : Bool := c.isWhitespace

theorem length_dropWhile_le (p : Char → Bool) :
    ∀ l : Str, (l.dropWhile p).length ≤ l.length := by
  intro l
  induction l with
  | nil => simp [List.dropWhile]
  | cons c cs ih =>
    by_cases h : p c
    · simp only [List.dropWhile_cons, h, if_pos]
      exact Nat.le_succ_of_le ih
    · simp [List.dropWhile_cons, h]

/-- `str.strip()`: drop whitespace from both ends. -/
def trimStr (l : Str) : Str :=
  ((l.dropWhile isWS).reverse.dropWhile isWS).reverse

/-- Collapse whitespace runs: `afterWS` records whether the previous
character was part of a whitespace run already rewritten to `' '`. -/
def collapseAux : Bool → Str → Str
  | _, [] => []
  | afterWS, c :: cs =>
    if isWS c then
      if afterWS then collapseAux true cs else ' ' :: collapseAux true cs
    else c :: collapseAux false cs

/-- `.str.replace(r'\s+', ' ', regex=True)`: collapse each whitespace
run to a single space. -/
def collapseWS (l : Str) : Str := collapseAux false l

/-- The whole string-cleaning step of `standardize_data`:
`.str.strip()` then whitespace-run collapsing. -/
def cleanStr (l : Str) : Str := collapseWS (trimStr l)

/-- A raw record produced by a scraper.  `none` models a missing column
or a pandas `NaN` cell, which `standardize_data` fills with `'N/A'`. -/
structure RawRec where
  name : Option Str
  date : Option Str
  county : Option Str
  source : Option Str
  rtype : Option Str
  details : Option Str
deriving DecidableEq

/-- A row of the standardized table (all six columns present). -/
structure Rec where
  name : Str
  date : Str
  county : Str
  source : Str
  rtype : Str
  details : Str
deriving DecidableEq

/-- `fillna('N/A')` followed by the string cleaning. -/
def cleanCell (c : Option Str) : Str := cleanStr (c.getD (str "N/A"))

/-- The column-defaulting and string-cleaning part of
`standardize_data` applied to one row. -/
def cleanRow (r : RawRec) : Rec :=
  { name := cleanCell r.name
    date := cleanCell r.date
    county := cleanCell r.county
    source := cleanCell r.source
    rtype := cleanCell r.rtype
    details := cleanCell r.details }

/-! ### Dates -/

/-- A calendar date as held by a parsed `datetime`-like value. -/
structure SDate where
  year : Nat
  month : Nat
  day : Nat
deriving DecidableEq

def isLeapYear (y : Nat) : Bool :=
  (y % 4 == 0 && y % 100 != 0) || y % 400 == 0

def daysInMonth (y m : Nat) : Nat :=
  if m = 2 then (if isLeapYear y then 29 else 28)
  else if m = 4 ∨ m = 6 ∨ m = 9 ∨ m = 11 then 30
  else 31

/-- Validity of a parsed date; the year bounds are the pandas
`Timestamp` range (out-of-range parses coerce to `NaT`). -/
def validDate (d : SDate) : Bool :=
  1677 ≤ d.year && d.year ≤ 2262 &&
  1 ≤ d.month && d.month ≤ 12 &&
  1 ≤ d.day && d.day ≤ daysInMonth d.year d.month

def digitsVal (cs : Str) : Nat :=
  cs.foldl (fun a c => a * 10 + (c.toNat - 48)) 0

/-- Parse an all-digit, non-empty field. -/
def parseNatField (cs : Str) : Option Nat :=
  if cs ≠ [] ∧ cs.all Char.isDigit then some (digitsVal cs) else none

def splitOnChAux (sep : Char) : Str → Str → List Str
  | [], acc => [acc.reverse]
  | c :: cs, acc =>
    if c = sep then acc.reverse :: splitOnChAux sep cs []
    else splitOnChAux sep cs (c :: acc)

/-- Split a string at every occurrence of a separator character. -/
def splitOnCh (sep : Char) (cs : Str) : List Str := splitOnChAux sep cs []

def mkDateIfValid (y m d : Nat) : Option SDate :=
  if validDate ⟨y, m, d⟩ then some ⟨y, m, d⟩ else none

/-- Strict parse against `%m/%d/%Y` (stage one of the date chain). -/
def parseMMDDYYYY (cs : Str) : Option SDate :=
  match splitOnCh '/' cs with
  | [m, d, y] =>
    match parseNatField m, parseNatField d, parseNatField y with
    | some mn, some dn, some yn =>
      if m.length ≤ 2 ∧ d.length ≤ 2 ∧ y.length = 4 then
        mkDateIfValid yn mn dn
      else none
    | _, _, _ => none
  | _ => none

/-- Strict parse against `%Y-%m-%d` (stage two of the date chain). -/
def parseYYYYMMDD (cs : Str) : Option SDate :=
  match splitOnCh '-' cs with
  | [y, m, d] =>
    match parseNatField y, parseNatField m, parseNatField d with
    | some yn, some mn, some dn =>
      if y.length = 4 ∧ m.length ≤ 2 ∧ d.length ≤ 2 then
        mkDateIfValid yn mn dn
      else none
    | _, _, _ => none
  | _ => none

/-- The three-stage fallback chain of `standardize_data`: strict
`%m/%d/%Y`, then strict `%Y-%m-%d`, then the permissive library parser
(`pd.to_datetime` with `errors='coerce'`), supplied as a parameter. -/
def parseDateChain (fuzzy : Str → Option SDate) (cs : Str) : Option SDate :=
  match parseMMDDYYYY cs with
  | some d => some d
  | none =>
    match parseYYYYMMDD cs with
    | some d => some d
    | none => fuzzy cs

def pad2 (n : Nat) : Str := [Nat.digitChar (n / 10 % 10), Nat.digitChar (n % 10)]

def pad4 (n : Nat) : Str :=
  [Nat.digitChar (n / 1000 % 10), Nat.digitChar (n / 100 % 10),
   Nat.digitChar (n / 10 % 10), Nat.digitChar (n % 10)]

/-- `strftime('%Y-%m-%d')`. -/
def formatDate (d : SDate) : Str :=
  pad4 d.year ++ ['-'] ++ pad2 d.month ++ ['-'] ++ pad2 d.day

def sentinelUnknown : Str := str "Unknown"

/-- The per-cell date normalization of `standardize_data`:
`df['Date'] = Date_Parsed.dt.strftime('%Y-%m-%d').fillna('Unknown')`. -/
def normalizeDate (fuzzy : Str → Option SDate) (cs : Str) : Str :=
  match parseDateChain fuzzy cs with
  | some d => formatDate d
  | none => sentinelUnknown

/-- Full per-row normalization: clean every cell, then replace the
date cell by its normalized form. -/
def normRow (fuzzy : Str → Option SDate) (r : RawRec) : Rec :=
  let c := cleanRow r
  { c with date := normalizeDate fuzzy c.date }

/-! ### Sorting and deduplication -/

/-- Code-point lexicographic order on strings (Python string order,
used by `sort_values` on an object column). -/
def strLe : Str → Str → Bool
  | [], _ => true
  | _ :: _, [] => false
  | a :: xs, b :: ys =>
    if a.toNat < b.toNat then true
    else if b.toNat < a.toNat then false
    else strLe xs ys

/-- `sort_values('Date', ascending=False)`: `a` may precede `b` iff
`b.date ≤ a.date`. -/
def dateGe (a b : Rec) : Prop := strLe b.date a.date = true

instance : DecidableRel dateGe := fun a b =>
  inferInstanceAs (Decidable (strLe b.date a.date = true))

theorem strLe_total : ∀ a b : Str, strLe a b = true ∨ strLe b a = true := by
  intro a
  induction a with
  | nil => intro b; left; rfl
  | cons x xs ih =>
    intro b
    cases b with
    | nil => right; rfl
    | cons y ys =>
      by_cases h1 : x.toNat < y.toNat
      · left; simp [strLe, h1]
      · by_cases h2 : y.toNat < x.toNat
        · right; simp [strLe, h2]
        · rcases ih ys with h | h
          · left; simp [strLe, h1, h2, h]
          · right; simp [strLe, h1, h2, h]

theorem strLe_trans : ∀ a b c : Str,
    strLe a b = true → strLe b c = true → strLe a c = true := by
  intro a
  induction a with
  | nil => intro b c _ _; rfl
  | cons x xs ih =>
    intro b c hab hbc
    cases b with
    | nil => simp [strLe] at hab
    | cons y ys =>
      cases c with
      | nil => simp [strLe] at hbc
      | cons z zs =>
        simp only [strLe] at hab hbc ⊢
        by_cases hxy : x.toNat < y.toNat
        · by_cases hyz : y.toNat < z.toNat
          · have : x.toNat < z.toNat := Nat.lt_trans hxy hyz
            simp [this]
          · by_cases hzy : z.toNat < y.toNat
            · simp [hyz, hzy] at hbc
            · have hy : y.toNat = z.toNat := Nat.le_antisymm
                (Nat.le_of_not_lt hzy) (Nat.le_of_not_lt hyz)
            -- tie in the tail of the second pair
              have : x.toNat < z.toNat := hy ▸ hxy
              simp [this]
        · by_cases hyx : y.toNat < x.toNat
          · simp [hxy, hyx] at hab
          · have hx : x.toNat = y.toNat := Nat.le_antisymm
              (Nat.le_of_not_lt hyx) (Nat.le_of_not_lt hxy)
            simp only [hxy, hyx, if_neg, ite_false, if_false] at hab
            by_cases hyz : y.toNat < z.toNat
            · have : x.toNat < z.toNat := hx ▸ hyz
              simp [this]
            · by_cases hzy : z.toNat < y.toNat
              · simp [hyz, hzy] at hbc
              · simp only [hyz, hzy, ite_false, if_false] at hbc
                have hx2 : ¬ x.toNat < z.toNat := by
                  intro hc; exact hyz (hx ▸ hc)
                have hz2 : ¬ z.toNat < x.toNat := by
                  intro hc; exact hzy (hx ▸ hc)
                simp [hx2, hz2, ih ys zs hab hbc]

instance : IsTotal Rec dateGe :=
  ⟨fun a b => (strLe_total b.date a.date).imp (fun h => h) (fun h => h)⟩

instance : IsTrans Rec dateGe :=
  ⟨fun _ _ _ hab hbc => strLe_trans _ _ _ hbc hab⟩

/-- One concrete realization of `sort_values('Date', ascending=False)`:
a stable insertion sort.  The pandas call (default `kind='quicksort'`,
which is not stable) guarantees only the `IsSortPerm` contract below —
a date-descending permutation of the rows — not this particular
permutation, so results that depend on which sorted permutation is
produced are stated over an arbitrary `IsSortPerm` sorter instead. -/
def sortByDateDesc (l : List Rec) : List Rec := List.insertionSort dateGe l

/-- The dedup identity key `(Name, County, Date)`. -/
def recKey (r : Rec) : Str × Str × Str := (r.name, r.county, r.date)

/-- `drop_duplicates(subset=['Name','County','Date'])`, keeping the
first occurrence. -/
def dedupAux (seen : List (Str × Str × Str)) : List Rec → List Rec
  | [] => []
  | r :: rs =>
    if recKey r ∈ seen then dedupAux seen rs
    else r :: dedupAux (recKey r :: seen) rs

def dropDupKeys (l : List Rec) : List Rec := dedupAux [] l

/-- Everything `sort_values('Date', ascending=False)` guarantees of
its output: a permutation of the rows that is sorted by date
descending.  Which permutation is produced on tied dates is
unspecified (the default quicksort is not stable). -/
def IsSortPerm (sorter : List Rec → List Rec) : Prop :=
  ∀ l : List Rec, (sorter l).Perm l ∧ List.Sorted dateGe (sorter l)

/-- The merge step of `standardize_data` over an arbitrary sorter
satisfying the `sort_values` contract: sort by date descending, then
drop duplicate identity keys. -/
def mergeWith (sorter : List Rec → List Rec) (l : List Rec) : List Rec :=
  dedupAux [] (sorter l)

/-- The merge step at the end of `standardize_data` in the
deterministic stable-sort model: sort by date descending, then drop
duplicate identity keys. -/
def mergeRecords (l : List Rec) : List Rec := dropDupKeys (sortByDateDesc l)

/-- `standardize_data`: empty frame returned as is; otherwise clean,
normalize dates, sort by date descending, and drop duplicate keys. -/
def standardize (fuzzy : Str → Option SDate) (rows : List RawRec) : List Rec :=
  if rows.isEmpty then [] else mergeRecords (rows.map (normRow fuzzy))

/-! ### Document fetcher (`fetch_url` and its tenacity retry policy) -/

/-- Exceptions that can escape one call of the inner `fetch_url` body.
`HTTPError` (raised by `raise_for_status`, carrying the response
status), `ConnectionError` and `Timeout` are all subclasses of
`requests.exceptions.RequestException`; `nonReqExc` models any other
exception class. -/
inductive FetchExc where
  | httpError (status : Nat)
  | connError
  | timeoutExc
  | otherReqExc
  | nonReqExc
deriving DecidableEq

instance : DecidableEq (Except FetchExc Str) := fun a b =>
  match a, b with
  | .ok x, .ok y => if h : x = y then isTrue (by rw [h]) else isFalse (by simp [h])
  | .error x, .error y => if h : x = y then isTrue (by rw [h]) else isFalse (by simp [h])
  | .ok _, .error _ => isFalse (by simp)
  | .error _, .ok _ => isFalse (by simp)

/-- `retry_if_exception_type(requests.exceptions.RequestException)`. -/
def isRequestException : FetchExc → Bool
  | .nonReqExc => false
  | _ => true

/-- `tenacity.wait_exponential(multiplier, min, max)` clamped delay. -/
def waitExpDelay (multiplier lo hi attempt : Nat) : Nat :=
  max lo (min hi (multiplier * 2 ^ attempt))

/-- The delay before retry number `attempt` in `fetch_url`
(`wait_exponential(multiplier=1, min=4, max=10)`). -/
def fetchWaitDelay (attempt : Nat) : Nat := waitExpDelay 1 4 10 attempt

/-- The tenacity retry loop around the `fetch_url` body, driven by what
each successive call of the body does (`responses n` is the outcome of
call number `n`).  Returns the final outcome and the number of calls
made.  `fuel` counts the calls still allowed, the current one
included: a failing call is retried only while more than one call
remains, so `stop_after_attempt(3)` is fuel 3. -/
def retryCall (responses : Nat → Except FetchExc Str) :
    Nat → Nat → Except FetchExc Str × Nat
  | 0, attempt => (responses attempt, attempt + 1)
  | fuel + 1, attempt =>
    match responses attempt with
    | .ok s => (.ok s, attempt + 1)
    | .error e =>
      if isRequestException e ∧ 0 < fuel then retryCall responses fuel (attempt + 1)
      else (.error e, attempt + 1)

/-- `fetch_url` under its decorator: `stop_after_attempt(3)`, so up to
three calls of the body. -/
def fetchURL (responses : Nat → Except FetchExc Str) : Except FetchExc Str × Nat :=
  retryCall responses 3 0

/-! ### Per-source failure boundary and the run coordinator (`main`) -/

/-- One step of a scraper body: either append a record to `data` or
raise an exception carrying a message. -/
inductive Step where
  | emit (r : RawRec)
  | raiseExc (msg : Str)
deriving DecidableEq

/-- Run a scraper body: records appended before the first uncaught
exception are kept in `data`; the exception message, if any, is
returned alongside. -/
def runBody : List Step → List RawRec × Option Str
  | [] => ([], none)
  | .emit r :: rest =>
    let p := runBody rest
    (r :: p.1, p.2)
  | .raiseExc m :: _ => ([], some m)

/-- `str(e)[:200]`: the truncation applied in every
`alert_failure(f"... {str(e)[:200]}")` call. -/
def truncate200 (m : Str) : Str := m.take 200

/-- The `try/except` boundary of one scraper: it always returns
`pd.DataFrame(data)` (the records accumulated so far), and on an
exception also emits a truncated alert diagnostic. -/
def sourceBoundary (steps : List Step) : List RawRec × Option Str :=
  let p := runBody steps
  (p.1, p.2.map truncate200)

/-- The collecting loop of `main`: every source task resolves to its
boundary output, independently of the other sources. -/
def coordinate (sources : List (List Step)) : List (List RawRec) :=
  sources.map (fun s => (sourceBoundary s).1)

/-- The orchestration skeleton of `main` as a function from the run's
environment to (exit status, final table).  Exit status `1` models
`sys.exit(1)`; `0` models falling off the end of `main`.  The
credential check aborts before scraping when not in dry-run mode;
afterwards only the all-sources-empty case exits with an error (again
only outside dry-run mode). -/
def mainRun (credsOk dryRun : Bool) (fuzzy : Str → Option SDate)
    (sources : List (List Step)) : Nat × List Rec :=
  if !credsOk && !dryRun then (1, [])
  else
    let results := (coordinate sources).filter (fun l => !l.isEmpty)
    if !results.isEmpty then (0, standardize fuzzy results.flatten)
    else if !dryRun then (1, []) else (0, [])

/-! ### The Collier extractor (`scrape_collier`) -/

/-- The per-row mapping of `scrape_collier`: a row needs at least six
cells; the date cell falls back to the current wall-clock day
(`datetime.now().strftime('%Y-%m-%d')`, passed in as `today`) when it
is empty or the literal `N/A`. -/
def collierRow (today : Str) : List Str → Option RawRec
  | c0 :: c1 :: c2 :: _ :: c4 :: c5 :: _ =>
    some { name := some c1
           date := some (if c5 = str "N/A" ∨ c5 = [] then today else c5)
           county := some (str "Collier")
           source := some (str "Collier Sheriff")
           rtype := some c0
           details := some (str "DOB: " ++ c2 ++ str " | Case: " ++ c4) }
  | _ => none

/-- `scrape_collier` on the extracted table: skip the header row, map
each remaining row, dropping rows with fewer than six cells. -/
def scrapeCollier (today : Str) (rows : List (List Str)) : List RawRec :=
  (rows.drop 1).filterMap (collierRow today)

/-! ### The Seminole free-text PDF extractor (`scrape_seminole`) -/

/-- Case-insensitive test for a line starting with the anchor
`"Name:"`, matching `re.split(r'(?=\nName:)', ..., flags=IGNORECASE)`
on the newline-joined page text. -/
def isAnchorLine (l : Str) : Bool :=
  match l with
  | c0 :: c1 :: c2 :: c3 :: c4 :: _ =>
    (c0 = 'N' || c0 = 'n') && (c1 = 'A' || c1 = 'a') &&
    (c2 = 'M' || c2 = 'm') && (c3 = 'E' || c3 = 'e') && c4 = ':'
  | _ => false

def splitBlocksAux (cur : List Str) : List Str → List (List Str)
  | [] => [cur.reverse]
  | l :: ls =>
    if isAnchorLine l then cur.reverse :: splitBlocksAux [l] ls
    else splitBlocksAux (l :: cur) ls

/-- Split the page lines into record blocks at every anchor line. -/
def splitBlocks (lines : List Str) : List (List Str) := splitBlocksAux [] lines

/-- Whether `pat` occurs as a contiguous substring of `text`
(Python `pat in text`, case-sensitive). -/
def containsSub (pat text : Str) : Bool :=
  match text with
  | [] => pat.isEmpty
  | _ :: ts => pat.isPrefixOf text || containsSub pat ts

/-- Split a line at its first colon, when it has one. -/
def splitFirstColon (l : Str) : Option (Str × Str) :=
  match l.dropWhile (fun c => c ≠ ':') with
  | ':' :: rest => some (l.takeWhile (fun c => c ≠ ':'), rest)
  | _ => none

/-- The `^([^:]{1,30}):\s*(.*)` key-value line pattern, with the
subsequent `.strip()` of both groups. -/
def parseKVLine (l : Str) : Option (Str × Str) :=
  match splitFirstColon l with
  | some (k, v) =>
    if 1 ≤ k.length ∧ k.length ≤ 30 then some (trimStr k, trimStr v)
    else none
  | none => none

/-- Python dict assignment `record[k] = v`: update in place when the
key exists, else append. -/
def upsert : List (Str × Str) → Str → Str → List (Str × Str)
  | [], k, v => [(k, v)]
  | kv :: rest, k, v =>
    if kv.1 = k then (k, v) :: rest else kv :: upsert rest k v

/-- `record[current_key] += extra`. -/
def appendVal : List (Str × Str) → Str → Str → List (Str × Str)
  | [], _, _ => []
  | kv :: rest, k, extra =>
    if kv.1 = k then (kv.1, kv.2 ++ extra) :: rest else kv :: appendVal rest k extra

def lookupKV (kvs : List (Str × Str)) (k : Str) : Option Str :=
  match kvs.find? (fun kv => kv.1 = k) with
  | some kv => some kv.2
  | none => none

/-- One line of the per-entry loop of `scrape_seminole`: strip, skip
blanks, set a new key on a `Key: Value` match, otherwise extend the
current key's value with a space and the line. -/
def entryStep (st : List (Str × Str) × Option Str) (line : Str) :
    List (Str × Str) × Option Str :=
  let l := trimStr line
  if l.isEmpty then st
  else
    match parseKVLine l with
    | some (k, v) => (upsert st.1 k v, some k)
    | none =>
      match st.2 with
      | some k => (appendVal st.1 k (' ' :: l), some k)
      | none => st

/-- Accumulate the key-value dict of one entry block. -/
def parseEntry (ls : List Str) : List (Str × Str) :=
  (ls.foldl entryStep ([], none)).1

/-- `next((v for k, v in record.items() if 'Date' in k and v.strip()), 'Unknown')`. -/
def seminoleFallbackDate (kvs : List (Str × Str)) : Str :=
  match kvs.find? (fun kv => containsSub (str "Date") kv.1 && !(trimStr kv.2).isEmpty) with
  | some kv => kv.2
  | none => str "Unknown"

/-- `record.get('Adjudication Date') or <fallback>`. -/
def seminoleDate (kvs : List (Str × Str)) : Str :=
  match lookupKV kvs (str "Adjudication Date") with
  | some v => if v.isEmpty then seminoleFallbackDate kvs else v
  | none => seminoleFallbackDate kvs

def intercalateStr (sep : Str) : List Str → Str
  | [] => []
  | [x] => x
  | x :: y :: xs => x ++ sep ++ intercalateStr sep (y :: xs)

/-- `' | '.join(f"{k}: {v}" for k, v in record.items() if k != 'Name')`. -/
def seminoleDetails (kvs : List (Str × Str)) : Str :=
  intercalateStr (str " | ")
    ((kvs.filter (fun kv => kv.1 ≠ str "Name")).map
      (fun kv => kv.1 ++ str ": " ++ kv.2))

/-- Convert one entry block to a raw record: skip all-blank entries and
entries without the (case-sensitive) substring `"Name:"`; parse the
key-value dict; require the mandatory `Name` key. -/
def entryToRecord (ls : List Str) : Option RawRec :=
  if ls.all (fun l => (trimStr l).isEmpty) then none
  else if !(ls.any (fun l => containsSub (str "Name:") l)) then none
  else
    let kvs := parseEntry ls
    match lookupKV kvs (str "Name") with
    | some nm =>
      some { name := some nm
             date := some (seminoleDate kvs)
             county := some (str "Seminole")
             source := some (str "Seminole PDF")
             rtype := some (str "Convicted")
             details := some (seminoleDetails kvs) }
    | none => none

/-- The text-parsing phase of `scrape_seminole` on the page lines. -/
def scrapeSeminoleText (lines : List Str) : List RawRec :=
  (splitBlocks lines).filterMap entryToRecord

/-- A concrete instantiation of the permissive third-stage date parser
that never parses; used for concrete evaluations. -/
def noFuzzy : Str → Option SDate := fun _ => none

/-! ## Lemmas about deduplication and merging -/

theorem dedupAux_sublist (seen : List (Str × Str × Str)) :
    ∀ l : List Rec, (dedupAux seen l).Sublist l := by
  intro l
  induction l generalizing seen with
  | nil => simp [dedupAux]
  | cons r rs ih =>
    by_cases h : recKey r ∈ seen
    · simp only [dedupAux, if_pos h]
      exact (ih seen).trans (List.sublist_cons_self r rs)
    · simp only [dedupAux, if_neg h]
      exact (ih (recKey r :: seen)).cons₂ r

theorem dedupAux_fresh (l : List Rec) :
    ∀ seen, ((dedupAux seen l).map recKey).Nodup ∧
      ∀ r ∈ dedupAux seen l, recKey r ∉ seen := by
  induction l with
  | nil => intro seen; simp [dedupAux]
  | cons r rs ih =>
    intro seen
    by_cases h : recKey r ∈ seen
    · simpa only [dedupAux, if_pos h] using ih seen
    · simp only [dedupAux, if_neg h, List.map_cons, List.nodup_cons]
      obtain ⟨ihn, ihf⟩ := ih (recKey r :: seen)
      refine ⟨⟨?_, ihn⟩, ?_⟩
      · intro hmem
        obtain ⟨s, hs, hks⟩ := List.mem_map.mp hmem
        exact (ihf s hs) (hks ▸ List.mem_cons_self _ _)
      · intro s hs
        rcases List.mem_cons.mp hs with rfl | hs2
        · exact h
        · intro hseen
          exact (ihf s hs2) (List.mem_cons_of_mem _ hseen)

theorem dedupAux_eq_self (l : List Rec) :
    ∀ seen, (l.map recKey).Nodup → (∀ r ∈ l, recKey r ∉ seen) →
      dedupAux seen l = l := by
  induction l with
  | nil => intro seen _ _; rfl
  | cons r rs ih =>
    intro seen hnd hfresh
    simp only [List.map_cons, List.nodup_cons] at hnd
    have h : recKey r ∉ seen := hfresh r (List.mem_cons_self _ _)
    simp only [dedupAux, if_neg h]
    refine congrArg (r :: ·) (ih (recKey r :: seen) hnd.2 ?_)
    intro s hs hmem
    rcases List.mem_cons.mp hmem with hk | hk
    · exact hnd.1 (hk ▸ List.mem_map_of_mem recKey hs)
    · exact hfresh s (List.mem_cons_of_mem _ hs) hk

theorem dedupAux_key_mem (l : List Rec) :
    ∀ seen k, k ∈ l.map recKey → k ∉ seen →
      k ∈ (dedupAux seen l).map recKey := by
  induction l with
  | nil => intro seen k h _; simp at h
  | cons r rs ih =>
    intro seen k hk hfresh
    by_cases h : recKey r ∈ seen
    · simp only [dedupAux, if_pos h]
      rcases List.mem_cons.mp hk with rfl | hk2
      · exact absurd h hfresh
      · exact ih seen k hk2 hfresh
    · simp only [dedupAux, if_neg h, List.map_cons]
      rcases List.mem_cons.mp hk with rfl | hk2
      · exact List.mem_cons_self _ _
      · by_cases hkr : k = recKey r
        · exact hkr ▸ List.mem_cons_self _ _
        · refine List.mem_cons_of_mem _ (ih _ k hk2 ?_)
          intro hc
          rcases List.mem_cons.mp hc with hc1 | hc2
          · exact hkr hc1
          · exact hfresh hc2

theorem sorted_sortByDateDesc (l : List Rec) :
    List.Sorted dateGe (sortByDateDesc l) :=
  List.sorted_insertionSort dateGe l

theorem sorted_mergeRecords (l : List Rec) :
    List.Sorted dateGe (mergeRecords l) :=
  List.Pairwise.sublist (dedupAux_sublist [] (sortByDateDesc l))
    (sorted_sortByDateDesc l)

theorem mergeRecords_mem {r : Rec} {l : List Rec} (h : r ∈ mergeRecords l) :
    r ∈ l := by
  have h1 : r ∈ sortByDateDesc l :=
    (dedupAux_sublist [] (sortByDateDesc l)).mem h
  exact (List.perm_insertionSort dateGe l).mem_iff.mp h1

theorem standardize_mem {r : Rec} {fuzzy : Str → Option SDate}
    {rows : List RawRec} (h : r ∈ standardize fuzzy rows) :
    ∃ raw ∈ rows, r = normRow fuzzy raw := by
  unfold standardize at h
  by_cases he : rows.isEmpty
  · simp [he] at h
  · simp only [he, if_neg, ite_false, if_false] at h
    obtain ⟨raw, hraw, hr⟩ := List.mem_map.mp (mergeRecords_mem h)
    exact ⟨raw, hraw, hr.symm⟩

/-- Claim theorem C3 helper: the key list of a merged table has no
duplicates. -/
theorem mergeRecords_nodup_keys (l : List Rec) :
    ((mergeRecords l).map recKey).Nodup :=
  (dedupAux_fresh (sortByDateDesc l) []).1

/-- Two canonical records with distinct names and tied `Unknown`
dates — a routine tie in the merged table (whole sources emit only
`Unknown` dates). -/
def tiedA : Rec :=
  ⟨str "ADAM ONE", str "Unknown", str "Lee", str "Lee Registry",
   str "Convicted", str "DOB: 1"⟩

def tiedB : Rec :=
  ⟨str "BETH TWO", str "Unknown", str "Lee", str "Lee Registry",
   str "Convicted", str "DOB: 2"⟩

/-- A sorter that meets everything the `sort_values` contract promises
(a date-descending permutation) but, like an unstable quicksort, does
not reproduce the incoming order of the two tied-date rows. -/
def unstableSorter (l : List Rec) : List Rec :=
  if l = [tiedA, tiedB] then [tiedB, tiedA]
  else if l = [tiedB, tiedA] then [tiedA, tiedB]
  else sortByDateDesc l

theorem unstableSorter_conforms : IsSortPerm unstableSorter := by
  intro l
  by_cases h1 : l = [tiedA, tiedB]
  · subst h1
    rw [show unstableSorter [tiedA, tiedB] = [tiedB, tiedA] from by decide]
    exact ⟨List.Perm.swap tiedA tiedB [], by decide⟩
  · by_cases h2 : l = [tiedB, tiedA]
    · subst h2
      rw [show unstableSorter [tiedB, tiedA] = [tiedA, tiedB] from by decide]
      exact ⟨List.Perm.swap tiedB tiedA [], by decide⟩
    · rw [show unstableSorter l = sortByDateDesc l from by
        unfold unstableSorter
        rw [if_neg h1, if_neg h2]]
      exact ⟨List.perm_insertionSort dateGe l, sorted_sortByDateDesc l⟩

/-- Counterexample to C3 as stated.  `sort_values` with its default
unstable quicksort only promises a date-descending permutation; under
a conforming sorter that (like an unstable sort) reorders two
tied-date rows, applying the merge step to its own output produces a
different row sequence — table-equality idempotence is not guaranteed
by the code. -/
theorem merge_not_idempotent_for_unstable_sort :
    IsSortPerm unstableSorter ∧
      mergeWith unstableSorter (mergeWith unstableSorter [tiedA, tiedB]) ≠
        mergeWith unstableSorter [tiedA, tiedB] := by
  refine ⟨unstableSorter_conforms, ?_⟩
  decide

/-- Claim C3 (amended). For every sorter satisfying the `sort_values`
contract, the merged table is sorted by date descending with
duplicate-free identity keys, and re-merging it yields a permutation
of it (idempotence up to row order, and therefore on the record set);
exact table equality `merge(merge(T)) = merge(T)` holds in the
stable-sort model, but the stability it needs is not guaranteed by the
pandas default quicksort. -/
theorem merge_idempotent_up_to_order :
    (∀ sorter : List Rec → List Rec, IsSortPerm sorter → ∀ l : List Rec,
      List.Sorted dateGe (mergeWith sorter l) ∧
      ((mergeWith sorter l).map recKey).Nodup ∧
      (mergeWith sorter (mergeWith sorter l)).Perm (mergeWith sorter l)) ∧
    (∀ l : List Rec, mergeRecords (mergeRecords l) = mergeRecords l) := by
  constructor
  · intro sorter hs l
    have hsorted : List.Sorted dateGe (mergeWith sorter l) :=
      List.Pairwise.sublist (dedupAux_sublist [] (sorter l)) (hs l).2
    have hnodup : ((mergeWith sorter l).map recKey).Nodup :=
      (dedupAux_fresh (sorter l) []).1
    refine ⟨hsorted, hnodup, ?_⟩
    have hp2 : (sorter (mergeWith sorter l)).Perm (mergeWith sorter l) :=
      (hs (mergeWith sorter l)).1
    have hnodup2 : ((sorter (mergeWith sorter l)).map recKey).Nodup :=
      ((hp2.map recKey).nodup_iff).mpr hnodup
    have heq : dedupAux [] (sorter (mergeWith sorter l)) =
        sorter (mergeWith sorter l) :=
      dedupAux_eq_self (sorter (mergeWith sorter l)) [] hnodup2
        (fun r _ => List.not_mem_nil _)
    show (dedupAux [] (sorter (mergeWith sorter l))).Perm (mergeWith sorter l)
    rw [heq]
    exact hp2
  · intro l
    have hsorted : List.Sorted dateGe (mergeRecords l) := sorted_mergeRecords l
    have hsort_eq : sortByDateDesc (mergeRecords l) = mergeRecords l :=
      List.Sorted.insertionSort_eq hsorted
    show dropDupKeys (sortByDateDesc (mergeRecords l)) = mergeRecords l
    rw [hsort_eq]
    exact dedupAux_eq_self (mergeRecords l) [] (mergeRecords_nodup_keys l)
      (fun r _ => List.not_mem_nil _)

/-- Witness for C3 (amended): the stable sorter meets the
`sort_values` contract, so the sorted/nodup/permutation conclusions
hold of it at a concrete tied-date table. -/
theorem merge_idempotent_up_to_order_witness :
    List.Sorted dateGe (mergeWith sortByDateDesc [tiedA, tiedB]) ∧
    ((mergeWith sortByDateDesc [tiedA, tiedB]).map recKey).Nodup ∧
    (mergeWith sortByDateDesc (mergeWith sortByDateDesc [tiedA, tiedB])).Perm
      (mergeWith sortByDateDesc [tiedA, tiedB]) :=
  merge_idempotent_up_to_order.1 sortByDateDesc
    (fun l => ⟨List.perm_insertionSort dateGe l, sorted_sortByDateDesc l⟩)
    [tiedA, tiedB]

theorem countP_eq_one_of_nodup_mem {α : Type} [DecidableEq α] {l : List α}
    {a : α} (hn : l.Nodup) (ha : a ∈ l) :
    l.countP (fun x => decide (x = a)) = 1 := by
  induction l with
  | nil => simp at ha
  | cons b bs ih =>
    simp only [List.nodup_cons] at hn
    rcases List.mem_cons.mp ha with rfl | hmem
    · rw [List.countP_cons]
      have hz : bs.countP (fun x => decide (x = a)) = 0 := by
        rw [List.countP_eq_zero]
        intro x hx hcx
        exact hn.1 ((of_decide_eq_true hcx) ▸ hx)
      simp [hz]
    · have hba : ¬(b = a) := fun hc => hn.1 (hc ▸ hmem)
      rw [List.countP_cons]
      simp [hba, ih hn.2 hmem]

/-- Claim C4. After merging, the output table contains exactly one
record for every identity key present in the input, and no two output
records share an identity key. -/
theorem merge_dedup_correct (l : List Rec) (k : Str × Str × Str)
    (hk : k ∈ l.map recKey) :
    ((mergeRecords l).map recKey).Nodup ∧
      ((mergeRecords l).map recKey).countP (fun x => decide (x = k)) = 1 := by
  refine ⟨mergeRecords_nodup_keys l, ?_⟩
  have hk2 : k ∈ (sortByDateDesc l).map recKey := by
    have hperm := (List.perm_insertionSort dateGe l).map recKey
    exact hperm.mem_iff.mpr hk
  have hmem : k ∈ (mergeRecords l).map recKey :=
    dedupAux_key_mem (sortByDateDesc l) [] k hk2 (List.not_mem_nil k)
  exact countP_eq_one_of_nodup_mem (mergeRecords_nodup_keys l) hmem

/-! ## Date normalization totality (claim C2) -/

theorem mkDateIfValid_valid {y m dn : Nat} {d : SDate}
    (h : mkDateIfValid y m dn = some d) : validDate d = true := by
  unfold mkDateIfValid at h
  by_cases hv : validDate ⟨y, m, dn⟩
  · simp only [hv, if_pos, ite_true, if_true] at h
    cases h
    exact hv
  · simp [hv] at h

theorem parseMMDDYYYY_valid {cs : Str} {d : SDate}
    (h : parseMMDDYYYY cs = some d) : validDate d = true := by
  unfold parseMMDDYYYY at h
  split at h
  · split at h
    · split at h
      · exact mkDateIfValid_valid h
      · simp at h
    · simp at h
  · simp at h

theorem parseYYYYMMDD_valid {cs : Str} {d : SDate}
    (h : parseYYYYMMDD cs = some d) : validDate d = true := by
  unfold parseYYYYMMDD at h
  split at h
  · split at h
    · split at h
      · exact mkDateIfValid_valid h
      · simp at h
    · simp at h
  · simp at h

theorem parseDateChain_valid {fuzzy : Str → Option SDate} {cs : Str} {d : SDate}
    (hfv : ∀ t e, fuzzy t = some e → validDate e = true)
    (h : parseDateChain fuzzy cs = some d) : validDate d = true := by
  unfold parseDateChain at h
  rcases h1 : parseMMDDYYYY cs with _ | d1
  · rw [h1] at h
    rcases h2 : parseYYYYMMDD cs with _ | d2
    · rw [h2] at h
      exact hfv cs d h
    · rw [h2] at h
      cases h
      exact parseYYYYMMDD_valid h2
  · rw [h1] at h
    cases h
    exact parseMMDDYYYY_valid h1

theorem formatDate_length (d : SDate) : (formatDate d).length = 10 := by
  simp [formatDate, pad4, pad2]

/-- Cell-level shape of the date normalization. -/
theorem normalizeDate_shape (fuzzy : Str → Option SDate)
    (hfv : ∀ t e, fuzzy t = some e → validDate e = true) (cs : Str) :
    normalizeDate fuzzy cs = sentinelUnknown ∨
      ∃ d : SDate, validDate d = true ∧ normalizeDate fuzzy cs = formatDate d := by
  unfold normalizeDate
  rcases h : parseDateChain fuzzy cs with _ | d
  · left; rfl
  · right
    exact ⟨d, parseDateChain_valid hfv h, rfl⟩

/-- Claim C2. Every date in a standardized batch is either the exact
sentinel `"Unknown"` or a valid calendar date formatted as the
ten-character `YYYY-MM-DD`; moreover an empty or sentinel input date is
normalized to the sentinel.  The permissive third-stage parser is
assumed to return only valid dates and to fail on the empty string and
on the sentinel (as `pd.to_datetime(..., errors='coerce')` does). -/
theorem standardize_date_totality (fuzzy : Str → Option SDate)
    (hfv : ∀ t e, fuzzy t = some e → validDate e = true)
    (hempty : fuzzy [] = none) (hsent : fuzzy sentinelUnknown = none) :
    (∀ rows : List RawRec, ∀ r ∈ standardize fuzzy rows,
      r.date = sentinelUnknown ∨
        ∃ d : SDate, validDate d = true ∧ r.date = formatDate d ∧ r.date.length = 10) ∧
    normalizeDate fuzzy [] = sentinelUnknown ∧
    normalizeDate fuzzy sentinelUnknown = sentinelUnknown := by
  refine ⟨?_, ?_, ?_⟩
  · intro rows r hr
    obtain ⟨raw, _, hr⟩ := standardize_mem hr
    have hdate : r.date = normalizeDate fuzzy (cleanRow raw).date := by
      rw [hr]; rfl
    rcases normalizeDate_shape fuzzy hfv (cleanRow raw).date with h | ⟨d, hd, h⟩
    · left; rw [hdate, h]
    · right
      exact ⟨d, hd, by rw [hdate, h], by rw [hdate, h]; exact formatDate_length d⟩
  · unfold normalizeDate parseDateChain
    have h1 : parseMMDDYYYY [] = none := by decide
    have h2 : parseYYYYMMDD [] = none := by decide
    rw [h1, h2, hempty]
  · unfold normalizeDate parseDateChain
    have h1 : parseMMDDYYYY sentinelUnknown = none := by decide
    have h2 : parseYYYYMMDD sentinelUnknown = none := by decide
    rw [h1, h2, hsent]

/-- Witness for C2: the fuzzy stage that never parses satisfies the
hypotheses, and a concrete batch normalizes `01/02/2020` to
`2020-01-02` and an empty date to the sentinel. -/
theorem standardize_date_totality_witness :
    ((standardize noFuzzy
      [{ name := some (str "JOHN DOE"), date := some (str "01/02/2020"),
         county := some (str "Lee"), source := some (str "Lee Enjoined"),
         rtype := some (str "Enjoined"), details := some (str "Case: 1") }]).map
        Rec.date = [str "2020-01-02"]) ∧
    (str "2020-01-02").length = 10 ∧
    ((standardize noFuzzy
      [{ name := some (str "JOHN DOE"), date := some [],
         county := some (str "Lee"), source := some (str "Lee Enjoined"),
         rtype := some (str "Enjoined"), details := some (str "Case: 1") }]).map
        Rec.date = [sentinelUnknown]) ∧
    (∀ rows : List RawRec, ∀ r ∈ standardize noFuzzy rows,
      r.date = sentinelUnknown ∨
        ∃ d : SDate, validDate d = true ∧ r.date = formatDate d ∧ r.date.length = 10) := by
  refine ⟨by decide, by decide, by decide, ?_⟩
  exact (standardize_date_totality noFuzzy (fun t e h => by cases h) rfl rfl).1

/-! ## Process exit contract (claim C5) -/

theorem coordinate_filter_nil (sources : List (List Step)) :
    ((coordinate sources).filter (fun l => !l.isEmpty)) = [] ↔
      ∀ s ∈ sources, (sourceBoundary s).1 = [] := by
  rw [List.filter_eq_nil_iff]
  constructor
  · intro h s hs
    have hmem := h _ (List.mem_map_of_mem (fun s => (sourceBoundary s).1) hs)
    simpa [List.isEmpty_iff] using hmem
  · intro h l hl
    obtain ⟨s, hs, rfl⟩ := List.mem_map.mp hl
    simp [List.isEmpty_iff, h s hs]

/-- Claim C5. Outside dry-run mode, `main` exits with an error status
exactly when credentials are missing or every source task yielded zero
records; with at least one productive source and credentials present it
falls off the end of `main` (exit 0), and in dry-run mode it never
error-exits. -/
theorem main_exit_contract (credsOk dryRun : Bool)
    (fuzzy : Str → Option SDate) (sources : List (List Step)) :
    (mainRun credsOk dryRun fuzzy sources).1 = 1 ↔
      dryRun = false ∧
        (credsOk = false ∨ ∀ s ∈ sources, (sourceBoundary s).1 = []) := by
  have hfilter := coordinate_filter_nil sources
  cases credsOk <;> cases dryRun
  · -- credentials missing, not dry-run: immediate error exit
    simp [mainRun]
  · -- credentials missing but dry-run: the run continues and exits 0
    simp only [mainRun]
    rw [if_neg (by simp)]
    split
    · simp
    · rw [if_neg (by simp)]
      simp
  · -- credentials present, not dry-run: error exit iff all sources empty
    simp only [mainRun]
    rw [if_neg (by simp)]
    by_cases hres : ((coordinate sources).filter (fun l => !l.isEmpty)) = []
    · rw [if_neg (by simp [hres]), if_pos (by simp)]
      exact iff_of_true rfl ⟨by simp, Or.inr (hfilter.mp hres)⟩
    · rw [if_pos (by simp [List.isEmpty_iff, hres])]
      refine iff_of_false (by simp) ?_
      rintro ⟨-, h | h⟩
      · simp at h
      · exact hres (hfilter.mpr h)
  · -- dry-run with credentials: never an error exit
    simp only [mainRun]
    rw [if_neg (by simp)]
    refine iff_of_false ?_ (by rintro ⟨h, -⟩; exact absurd h (by simp))
    split
    · simp
    · rw [if_neg (by simp)]
      simp

/-! ## Fetcher retry policy (claims C7) -/

theorem retryCall_attempts_le (responses : Nat → Except FetchExc Str) :
    ∀ fuel attempt, 0 < fuel →
      (retryCall responses fuel attempt).2 ≤ attempt + fuel := by
  intro fuel
  induction fuel with
  | zero =>
    intro attempt h
    exact absurd h (by omega)
  | succ n ih =>
    intro attempt _
    unfold retryCall
    rcases responses attempt with e | s
    · dsimp only
      by_cases hc : isRequestException e ∧ 0 < n
      · rw [if_pos hc]
        have := ih (attempt + 1) hc.2
        omega
      · rw [if_neg hc]
        show attempt + 1 ≤ attempt + (n + 1)
        omega
    · show attempt + 1 ≤ attempt + (n + 1)
      omega

/-- A first-call 4xx client error followed by a success: what the
tenacity-decorated `fetch_url` does with it. -/
def resp404 : Nat → Except FetchExc Str :=
  fun a => if a = 0 then .error (.httpError 404) else .ok (str "ok")

/-- Counterexample to C7 as stated: `HTTPError` raised by
`raise_for_status` on a 404 is a `RequestException`, so the decorator
retries it — the second attempt runs and its success is returned,
rather than the 4xx failing immediately. -/
theorem fetch_retries_on_4xx :
    isRequestException (.httpError 404) = true ∧
      fetchURL resp404 = (.ok (str "ok"), 2) := by
  constructor
  · rfl
  · rfl

/-- Claim C7 (amended). `fetch_url` makes at most three attempts; every
retry delay is between 4 and 10 seconds; an exception outside
`RequestException` is not retried and fails on the first attempt; any
`RequestException` — 5xx, timeout, connection reset, and equally a 4xx
`HTTPError` — is retried, so a success on the second or the third
attempt is returned, and after three failed attempts the third error
is raised. -/
theorem fetch_retry_policy :
    (∀ responses : Nat → Except FetchExc Str, (fetchURL responses).2 ≤ 3) ∧
    (∀ n, 4 ≤ fetchWaitDelay n ∧ fetchWaitDelay n ≤ 10) ∧
    (∀ (responses : Nat → Except FetchExc Str) (e : FetchExc),
      responses 0 = .error e → isRequestException e = false →
        fetchURL responses = (.error e, 1)) ∧
    (∀ (responses : Nat → Except FetchExc Str) (e : FetchExc) (s : Str),
      responses 0 = .error e → isRequestException e = true →
        responses 1 = .ok s → fetchURL responses = (.ok s, 2)) ∧
    (∀ (responses : Nat → Except FetchExc Str) (e1 e2 : FetchExc) (s : Str),
      responses 0 = .error e1 → isRequestException e1 = true →
      responses 1 = .error e2 → isRequestException e2 = true →
        responses 2 = .ok s → fetchURL responses = (.ok s, 3)) ∧
    (∀ (responses : Nat → Except FetchExc Str) (e1 e2 e3 : FetchExc),
      responses 0 = .error e1 → isRequestException e1 = true →
      responses 1 = .error e2 → isRequestException e2 = true →
        responses 2 = .error e3 → fetchURL responses = (.error e3, 3)) := by
  refine ⟨?_, ?_, ?_, ?_, ?_, ?_⟩
  · intro responses
    exact retryCall_attempts_le responses 3 0 (by omega)
  · intro n
    constructor
    · exact Nat.le_max_left 4 _
    · exact Nat.max_le.mpr ⟨by omega, Nat.min_le_left 10 _⟩
  · intro responses e h0 hnr
    unfold fetchURL retryCall
    rw [h0]
    simp [hnr]
  · intro responses e s h0 hr h1
    unfold fetchURL retryCall
    rw [h0]
    dsimp only
    rw [if_pos ⟨hr, by omega⟩]
    unfold retryCall
    rw [h1]
  · intro responses e1 e2 s h0 hr1 h1 hr2 h2
    unfold fetchURL retryCall
    rw [h0]
    dsimp only
    rw [if_pos ⟨hr1, by omega⟩]
    unfold retryCall
    rw [h1]
    dsimp only
    rw [if_pos ⟨hr2, by omega⟩]
    unfold retryCall
    rw [h2]
  · intro responses e1 e2 e3 h0 hr1 h1 hr2 h2
    unfold fetchURL retryCall
    rw [h0]
    dsimp only
    rw [if_pos ⟨hr1, by omega⟩]
    unfold retryCall
    rw [h1]
    dsimp only
    rw [if_pos ⟨hr2, by omega⟩]
    unfold retryCall
    rw [h2]
    dsimp only
    rw [if_neg (by omega)]

/-- Witness for C7 (amended): a timeout on the first attempt is
retried and the second attempt's success is returned; timeouts on the
first two attempts are both retried and the third attempt's success is
returned with three calls made. -/
theorem fetch_retry_policy_witness :
    (fun a => if a = 0 then Except.error FetchExc.timeoutExc
              else Except.ok (str "ok") : Nat → Except FetchExc Str) 0 =
        .error .timeoutExc ∧
    isRequestException .timeoutExc = true ∧
    fetchURL (fun a => if a = 0 then .error .timeoutExc else .ok (str "ok")) =
      (.ok (str "ok"), 2) ∧
    fetchURL (fun a => if a ≤ 1 then .error .timeoutExc else .ok (str "ok")) =
      (.ok (str "ok"), 3) ∧
    (fetchURL (fun a => if a = 0 then .error .timeoutExc else .ok (str "ok"))).2 ≤ 3 := by
  refine ⟨rfl, rfl, ?_, ?_, ?_⟩
  · exact fetch_retry_policy.2.2.2.1
      (fun a => if a = 0 then .error .timeoutExc else .ok (str "ok"))
      .timeoutExc (str "ok") rfl rfl rfl
  · exact fetch_retry_policy.2.2.2.2.1
      (fun a => if a ≤ 1 then .error .timeoutExc else .ok (str "ok"))
      .timeoutExc .timeoutExc (str "ok") rfl rfl rfl rfl rfl
  · exact fetch_retry_policy.1
      (fun a => if a = 0 then .error .timeoutExc else .ok (str "ok"))

/-! ## Collier date fallback (claim C10) -/

/-- A Collier table row whose sixth (date) cell is empty. -/
def collierEmptyDateRow : List Str :=
  [str "Convicted", str "A B", str "d", str "x", str "c", []]

/-- Claim C10. A Collier row with at least six cells whose sixth cell
is empty or `N/A` gets the current wall-clock day as its date — so the
raw records produced from identical content differ between runs on
different days. -/
theorem collier_date_is_run_day (today : Str) (cols : List Str) (r : RawRec)
    (h : collierRow today cols = some r)
    (h5 : cols[5]? = some [] ∨ cols[5]? = some (str "N/A")) :
    r.date = some today ∧
      ∀ t1 t2 : Str, t1 ≠ t2 →
        collierRow t1 collierEmptyDateRow ≠ collierRow t2 collierEmptyDateRow := by
  constructor
  · rcases cols with _ | ⟨c0, cols⟩
    · simp [collierRow] at h
    rcases cols with _ | ⟨c1, cols⟩
    · simp [collierRow] at h
    rcases cols with _ | ⟨c2, cols⟩
    · simp [collierRow] at h
    rcases cols with _ | ⟨c3, cols⟩
    · simp [collierRow] at h
    rcases cols with _ | ⟨c4, cols⟩
    · simp [collierRow] at h
    rcases cols with _ | ⟨c5, rest⟩
    · simp [collierRow] at h
    have hc5 : c5 = [] ∨ c5 = str "N/A" := by
      rcases h5 with h5 | h5 <;> simp at h5 <;> [left; right] <;> exact h5
    have hcond : c5 = str "N/A" ∨ c5 = [] := hc5.symm
    simp only [collierRow, Option.some_inj] at h
    rw [← h]
    simp [hcond]
  · intro t1 t2 hne hcontra
    simp only [collierEmptyDateRow, collierRow] at hcontra
    simp at hcontra
    exact hne hcontra

/-- Witness for C10 on a concrete row and two concrete run days. -/
theorem collier_date_is_run_day_witness :
    (∃ r : RawRec, collierRow (str "2026-10-12") collierEmptyDateRow = some r ∧
      r.date = some (str "2026-10-12")) ∧
    collierRow (str "2026-10-12") collierEmptyDateRow ≠
      collierRow (str "2026-10-13") collierEmptyDateRow := by
  constructor
  · refine ⟨{ name := some (str "A B"), date := some (str "2026-10-12"),
              county := some (str "Collier"), source := some (str "Collier Sheriff"),
              rtype := some (str "Convicted"),
              details := some (str "DOB: d | Case: c") }, by decide, ?_⟩
    exact (collier_date_is_run_day (str "2026-10-12") collierEmptyDateRow _
      (by decide) (by decide)).1
  · exact (collier_date_is_run_day (str "2026-10-12") collierEmptyDateRow
      { name := some (str "A B"), date := some (str "2026-10-12"),
        county := some (str "Collier"), source := some (str "Collier Sheriff"),
        rtype := some (str "Convicted"),
        details := some (str "DOB: d | Case: c") }
      (by decide) (by decide)).2 (str "2026-10-12") (str "2026-10-13") (by decide)

/-- Witness for C4 at a concrete two-record collision. -/
theorem merge_dedup_correct_witness :
    (([⟨str "JANE ROE", str "2020-01-02", str "Lee", str "A", str "T", str "D1"⟩,
       ⟨str "JANE ROE", str "2020-01-02", str "Lee", str "B", str "T", str "D2"⟩] :
        List Rec).map recKey).countP
      (fun x => decide (x = (str "JANE ROE", str "Lee", str "2020-01-02"))) = 2 ∧
    ((mergeRecords
      [⟨str "JANE ROE", str "2020-01-02", str "Lee", str "A", str "T", str "D1"⟩,
       ⟨str "JANE ROE", str "2020-01-02", str "Lee", str "B", str "T", str "D2"⟩]).map
        recKey).countP
      (fun x => decide (x = (str "JANE ROE", str "Lee", str "2020-01-02"))) = 1 := by
  refine ⟨by decide, ?_⟩
  exact (merge_dedup_correct
      [⟨str "JANE ROE", str "2020-01-02", str "Lee", str "A", str "T", str "D1"⟩,
       ⟨str "JANE ROE", str "2020-01-02", str "Lee", str "B", str "T", str "D2"⟩]
      (str "JANE ROE", str "Lee", str "2020-01-02") (by decide)).2

/-! ## Per-source failure isolation (claim C6) -/

/-- A demonstration raw record. -/
def demoRaw : RawRec :=
  { name := some (str "A B"), date := some (str "01/02/2020"),
    county := some (str "Volusia"), source := some (str "Volusia PDF"),
    rtype := some (str "Convicted"), details := some (str "DOB: x") }

/-- A scraper body that appends one record and then raises. -/
def crashAfterOneSteps : List Step :=
  [Step.emit demoRaw, Step.raiseExc (str "boom")]

/-- Counterexample to C6 as stated: a source whose body raises after
appending a record does NOT yield an empty record set — the scraper's
`except` branch falls through to `return pd.DataFrame(data)`, keeping
the records accumulated before the exception. -/
theorem crashed_source_keeps_partial :
    (runBody crashAfterOneSteps).2.isSome = true ∧
      (sourceBoundary crashAfterOneSteps).1 = [demoRaw] ∧
      (sourceBoundary crashAfterOneSteps).1 ≠ [] := by
  refine ⟨rfl, rfl, ?_⟩
  intro h
  simp [sourceBoundary, runBody, crashAfterOneSteps] at h

/-- Claim C6 (amended). A source's exception is caught at its own
boundary: the source resolves to the records accumulated before the
exception (empty when the failure precedes extraction), with a
diagnostic truncated to 200 characters; each source's outcome depends
only on its own steps, and a run with at least one productive source
and credentials present still exits 0 no matter how many other sources
crash. -/
theorem source_failure_isolation :
    (∀ steps : List Step, (sourceBoundary steps).1 = (runBody steps).1) ∧
    (∀ (steps : List Step) (m : Str),
      (sourceBoundary steps).2 = some m → m.length ≤ 200) ∧
    (∀ (sources : List (List Step)) (i : Nat),
      (coordinate sources)[i]? = (sources[i]?).map (fun s => (sourceBoundary s).1)) ∧
    (∀ (credsOk dryRun : Bool) (fuzzy : Str → Option SDate)
       (sources : List (List Step)) (s : List Step),
      s ∈ sources → (sourceBoundary s).1 ≠ [] → credsOk = true →
        (mainRun credsOk dryRun fuzzy sources).1 = 0) := by
  refine ⟨fun _ => rfl, ?_, ?_, ?_⟩
  · intro steps m hm
    simp only [sourceBoundary] at hm
    rcases h2 : (runBody steps).2 with _ | m0
    · rw [h2] at hm
      simp at hm
    · rw [h2] at hm
      obtain rfl : truncate200 m0 = m := by simpa using hm
      calc (truncate200 m0).length = min 200 m0.length := List.length_take 200 m0
        _ ≤ 200 := Nat.min_le_left _ _
  · intro sources i
    simp [coordinate]
  · intro credsOk dryRun fuzzy sources s hs hne hcreds
    subst hcreds
    simp only [mainRun]
    rw [if_neg (by simp)]
    have hkeep : (sourceBoundary s).1 ∈
        (coordinate sources).filter (fun l => !l.isEmpty) := by
      refine List.mem_filter.mpr
        ⟨List.mem_map_of_mem (fun s => (sourceBoundary s).1) hs, ?_⟩
      simpa [List.isEmpty_iff] using hne
    rw [if_pos (by simpa [List.isEmpty_iff] using List.ne_nil_of_mem hkeep)]

/-- Witness for C6 (amended): an eight-source run where five sources
raise still exits 0 with the surviving sources' data. -/
theorem source_failure_isolation_witness :
    ([Step.emit demoRaw] ∈
      [[Step.raiseExc (str "e1")], [Step.raiseExc (str "e2")],
       [Step.raiseExc (str "e3")], [Step.raiseExc (str "e4")],
       [Step.raiseExc (str "e5")], [Step.emit demoRaw],
       [Step.emit demoRaw], [Step.emit demoRaw]]) ∧
    (mainRun true false noFuzzy
      [[Step.raiseExc (str "e1")], [Step.raiseExc (str "e2")],
       [Step.raiseExc (str "e3")], [Step.raiseExc (str "e4")],
       [Step.raiseExc (str "e5")], [Step.emit demoRaw],
       [Step.emit demoRaw], [Step.emit demoRaw]]).1 = 0 := by
  refine ⟨by decide, ?_⟩
  exact source_failure_isolation.2.2.2 true false noFuzzy
    [[Step.raiseExc (str "e1")], [Step.raiseExc (str "e2")],
     [Step.raiseExc (str "e3")], [Step.raiseExc (str "e4")],
     [Step.raiseExc (str "e5")], [Step.emit demoRaw],
     [Step.emit demoRaw], [Step.emit demoRaw]]
    [Step.emit demoRaw] (by decide) (by decide) rfl

/-! ## Seminole free-text block splitting (claim C8) -/

theorem splitBlocksAux_length (ls : List Str) :
    ∀ cur, (splitBlocksAux cur ls).length = ls.countP isAnchorLine + 1 := by
  induction ls with
  | nil => intro cur; simp [splitBlocksAux]
  | cons l ls ih =>
    intro cur
    by_cases h : isAnchorLine l
    · simp [splitBlocksAux, h, ih, List.countP_cons]
    · simp [splitBlocksAux, h, ih, List.countP_cons]

theorem splitBlocksAux_flatten (ls : List Str) :
    ∀ cur, (splitBlocksAux cur ls).flatten = cur.reverse ++ ls := by
  induction ls with
  | nil => intro cur; simp [splitBlocksAux]
  | cons l ls ih =>
    intro cur
    by_cases h : isAnchorLine l
    · simp [splitBlocksAux, h, ih]
    · simp [splitBlocksAux, h, ih]

/-- The concrete two-block scenario from the specification. -/
def twoBlockLines : List Str :=
  [str "Name: John Doe", str "Case: 123",
   str "Name: Jane Roe", str "Adjudication Date: 01/02/2020"]

/-- Claim C8. The Seminole free-text extractor splits the page lines
into one block per `"Name:"` anchor occurrence (plus the preamble
block) without losing lines; a block is converted to a record only if
its parsed key-value dict contains the mandatory `Name` key; and the
two-anchor scenario yields exactly two records carrying the two
names. -/
theorem seminole_block_extraction :
    (∀ lines : List Str,
      (splitBlocks lines).length = lines.countP isAnchorLine + 1 ∧
      (splitBlocks lines).flatten = lines) ∧
    (∀ b : List Str, (entryToRecord b).isSome = true →
      (lookupKV (parseEntry b) (str "Name")).isSome = true) ∧
    ((scrapeSeminoleText twoBlockLines).length = 2 ∧
      (scrapeSeminoleText twoBlockLines).map RawRec.name =
        [some (str "John Doe"), some (str "Jane Roe")]) := by
  refine ⟨?_, ?_, by decide, by decide⟩
  · intro lines
    exact ⟨splitBlocksAux_length lines [], by simpa using splitBlocksAux_flatten lines []⟩
  · intro b h
    simp only [entryToRecord] at h
    split at h
    · simp at h
    · split at h
      · simp at h
      · split at h
        · rename_i nm heq
          rw [heq]
          rfl
        · simp at h

/-- Witness for C8: a one-line block with a `Name:` key passes the
mandatory-name gate. -/
theorem seminole_block_extraction_witness :
    (entryToRecord [str "Name: X"]).isSome = true ∧
      (lookupKV (parseEntry [str "Name: X"]) (str "Name")).isSome = true := by
  refine ⟨by decide, ?_⟩
  exact seminole_block_extraction.2.1 [str "Name: X"] (by decide)

/-! ## Structure of the string cleaning (claims C1 and C9) -/

theorem head?_dropWhile_not (p : Char → Bool) :
    ∀ (l : Str) (c : Char), (l.dropWhile p).head? = some c → p c = false := by
  intro l
  induction l with
  | nil => intro c h; simp [List.dropWhile] at h
  | cons a t ih =>
    intro c h
    by_cases hp : p a = true
    · rw [List.dropWhile_cons, if_pos hp] at h
      exact ih c h
    · rw [List.dropWhile_cons, if_neg hp] at h
      simp only [List.head?_cons, Option.some_inj] at h
      subst h
      simpa using hp

theorem dropWhile_eq_self_of_head (p : Char → Bool) (l : Str)
    (h : ∀ c, l.head? = some c → p c = false) : l.dropWhile p = l := by
  cases l with
  | nil => rfl
  | cons a t =>
    rw [List.dropWhile_cons, if_neg (by simp [h a rfl])]

theorem dropWhile_getLast? (p : Char → Bool) :
    ∀ l : Str, l.dropWhile p ≠ [] → (l.dropWhile p).getLast? = l.getLast? := by
  intro l
  induction l with
  | nil => intro h; simp [List.dropWhile] at h
  | cons a t ih =>
    intro h
    by_cases hp : p a = true
    · rw [List.dropWhile_cons, if_pos hp] at h ⊢
      rw [ih h]
      cases t with
      | nil => simp [List.dropWhile] at h
      | cons b t2 => exact List.getLast?_cons_cons.symm
    · rw [List.dropWhile_cons, if_neg hp]

theorem trimStr_head (l : Str) :
    ∀ c, (trimStr l).head? = some c → isWS c = false := by
  intro c h
  unfold trimStr at h
  rw [List.head?_reverse] at h
  by_cases hzn : (l.dropWhile isWS).reverse.dropWhile isWS = []
  · rw [hzn] at h
    simp at h
  · rw [dropWhile_getLast? isWS ((l.dropWhile isWS).reverse) hzn,
        List.getLast?_reverse] at h
    exact head?_dropWhile_not isWS l c h

theorem trimStr_getLast (l : Str) :
    ∀ c, (trimStr l).getLast? = some c → isWS c = false := by
  intro c h
  unfold trimStr at h
  rw [List.getLast?_reverse] at h
  exact head?_dropWhile_not isWS _ c h

theorem collapseAux_head_true :
    ∀ (y : Str) (c : Char), (collapseAux true y).head? = some c → isWS c = false := by
  intro y
  induction y with
  | nil => intro c h; simp [collapseAux] at h
  | cons a t ih =>
    intro c h
    by_cases hws : isWS a = true
    · rw [show collapseAux true (a :: t) = collapseAux true t from by
        simp [collapseAux, hws]] at h
      exact ih c h
    · rw [show collapseAux true (a :: t) = a :: collapseAux false t from by
        simp [collapseAux, hws]] at h
      simp only [List.head?_cons, Option.some_inj] at h
      subst h
      simpa using hws

theorem collapseAux_head_false (y : Str)
    (h : ∀ c, y.head? = some c → isWS c = false) :
    (collapseAux false y).head? = y.head? := by
  cases y with
  | nil => rfl
  | cons a t =>
    have ha := h a rfl
    simp [collapseAux, ha]

theorem collapse_false_ne_nil : ∀ y : Str, y ≠ [] → collapseAux false y ≠ [] := by
  intro y hy
  cases y with
  | nil => exact absurd rfl hy
  | cons a t =>
    by_cases hws : isWS a = true <;> simp [collapseAux, hws]

theorem collapse_true_nil_all_ws :
    ∀ y : Str, collapseAux true y = [] → ∀ c ∈ y, isWS c = true := by
  intro y
  induction y with
  | nil => intro _ c hc; simp at hc
  | cons a t ih =>
    intro h c hc
    by_cases hws : isWS a = true
    · rw [show collapseAux true (a :: t) = collapseAux true t from by
        simp [collapseAux, hws]] at h
      rcases List.mem_cons.mp hc with rfl | hc2
      · exact hws
      · exact ih h c hc2
    · rw [show collapseAux true (a :: t) = a :: collapseAux false t from by
        simp [collapseAux, hws]] at h
      simp at h

theorem getLast?_cons_exists (a : Char) :
    ∀ t : Str, ∃ w, (a :: t).getLast? = some w ∧ w ∈ a :: t := by
  intro t
  induction t generalizing a with
  | nil => exact ⟨a, List.getLast?_singleton a, List.mem_cons_self a []⟩
  | cons b t2 ih =>
    obtain ⟨w, hw, hmem⟩ := ih b
    exact ⟨w, by rw [List.getLast?_cons_cons]; exact hw,
      List.mem_cons_of_mem a hmem⟩

theorem collapseAux_getLast :
    ∀ y : Str, (∀ c, y.getLast? = some c → isWS c = false) →
      ∀ (b : Bool) (c : Char), (collapseAux b y).getLast? = some c →
        isWS c = false := by
  intro y
  induction y with
  | nil => intro _ b c hc; cases b <;> simp [collapseAux] at hc
  | cons a t ih =>
    intro h b c hc
    cases t with
    | nil =>
      have ha : isWS a = false := h a (List.getLast?_singleton a)
      rw [show collapseAux b [a] = [a] from by cases b <;> simp [collapseAux, ha]] at hc
      rw [List.getLast?_singleton] at hc
      cases hc
      exact ha
    | cons a2 t2 =>
      have h2 : ∀ c, (a2 :: t2).getLast? = some c → isWS c = false := by
        intro c hc2
        exact h c (by rw [List.getLast?_cons_cons]; exact hc2)
      by_cases hws : isWS a = true
      · cases b with
        | true =>
          rw [show collapseAux true (a :: a2 :: t2) = collapseAux true (a2 :: t2) from by
            simp [collapseAux, hws]] at hc
          exact ih h2 true c hc
        | false =>
          rw [show collapseAux false (a :: a2 :: t2) =
              ' ' :: collapseAux true (a2 :: t2) from by
            simp [collapseAux, hws]] at hc
          rcases hz : collapseAux true (a2 :: t2) with _ | ⟨zh, zt⟩
          · obtain ⟨w, hw, hwm⟩ := getLast?_cons_exists a2 t2
            have hwws := collapse_true_nil_all_ws (a2 :: t2) hz w hwm
            rw [h2 w hw] at hwws
            cases hwws
          · rw [hz, List.getLast?_cons_cons] at hc
            refine ih h2 true c ?_
            rw [hz]
            exact hc
      · rw [show collapseAux b (a :: a2 :: t2) =
            a :: collapseAux false (a2 :: t2) from by
          cases b <;> simp [collapseAux, hws]] at hc
        rcases hz : collapseAux false (a2 :: t2) with _ | ⟨zh, zt⟩
        · exact absurd hz (collapse_false_ne_nil (a2 :: t2) (by simp))
        · rw [hz, List.getLast?_cons_cons] at hc
          refine ih h2 false c ?_
          rw [hz]
          exact hc

theorem collapseAux_ws_space :
    ∀ (y : Str) (b : Bool) (c : Char),
      c ∈ collapseAux b y → isWS c = true → c = ' ' := by
  intro y
  induction y with
  | nil => intro b c hc _; cases b <;> simp [collapseAux] at hc
  | cons a t ih =>
    intro b c hc hwsc
    by_cases hws : isWS a = true
    · cases b with
      | true =>
        rw [show collapseAux true (a :: t) = collapseAux true t from by
          simp [collapseAux, hws]] at hc
        exact ih true c hc hwsc
      | false =>
        rw [show collapseAux false (a :: t) = ' ' :: collapseAux true t from by
          simp [collapseAux, hws]] at hc
        rcases List.mem_cons.mp hc with rfl | hc2
        · rfl
        · exact ih true c hc2 hwsc
    · rw [show collapseAux b (a :: t) = a :: collapseAux false t from by
        cases b <;> simp [collapseAux, hws]] at hc
      rcases List.mem_cons.mp hc with rfl | hc2
      · exact absurd hwsc (by simpa using hws)
      · exact ih false c hc2 hwsc

theorem collapseAux_chain :
    ∀ (y : Str) (b : Bool),
      List.Chain' (fun u v => isWS u = false ∨ isWS v = false) (collapseAux b y) := by
  intro y
  induction y with
  | nil => intro b; cases b <;> exact List.chain'_nil
  | cons a t ih =>
    intro b
    by_cases hws : isWS a = true
    · cases b with
      | true =>
        rw [show collapseAux true (a :: t) = collapseAux true t from by
          simp [collapseAux, hws]]
        exact ih true
      | false =>
        rw [show collapseAux false (a :: t) = ' ' :: collapseAux true t from by
          simp [collapseAux, hws]]
        rcases hz : collapseAux true t with _ | ⟨zh, zt⟩
        · exact List.chain'_singleton ' '
        · rw [List.chain'_cons]
          refine ⟨Or.inr (collapseAux_head_true t zh (by rw [hz]; rfl)), ?_⟩
          rw [← hz]
          exact ih true
    · rw [show collapseAux b (a :: t) = a :: collapseAux false t from by
        cases b <;> simp [collapseAux, hws]]
      rcases hz : collapseAux false t with _ | ⟨zh, zt⟩
      · exact List.chain'_singleton a
      · rw [List.chain'_cons]
        refine ⟨Or.inl (by simpa using hws), ?_⟩
        rw [← hz]
        exact ih false

theorem collapseAux_eq_self :
    ∀ y : Str, (∀ c ∈ y, isWS c = true → c = ' ') →
      List.Chain' (fun u v => isWS u = false ∨ isWS v = false) y →
      collapseAux false y = y := by
  intro y
  induction y with
  | nil => intro _ _; rfl
  | cons a t ih =>
    intro hmem hchain
    by_cases hws : isWS a = true
    · have ha : a = ' ' := hmem a (List.mem_cons_self a t) hws
      subst ha
      rw [show collapseAux false (' ' :: t) = ' ' :: collapseAux true t from by
        simp [collapseAux, isWS]]
      congr 1
      cases t with
      | nil => rfl
      | cons b t2 =>
        have hb : isWS b = false := by
          rcases List.chain'_cons.mp hchain with ⟨hr, -⟩
          rcases hr with h1 | h2
          · exact absurd h1 (by simp [isWS])
          · exact h2
        have ht : collapseAux false (b :: t2) = b :: t2 :=
          ih (fun c hc h => hmem c (List.mem_cons_of_mem _ hc) h) hchain.tail
        rw [show collapseAux false (b :: t2) = b :: collapseAux false t2 from by
          simp [collapseAux, hb]] at ht
        rw [show collapseAux true (b :: t2) = b :: collapseAux false t2 from by
          simp [collapseAux, hb]]
        exact ht
    · rw [show collapseAux false (a :: t) = a :: collapseAux false t from by
        simp [collapseAux, hws]]
      congr 1
      exact ih (fun c hc h => hmem c (List.mem_cons_of_mem _ hc) h) hchain.tail

theorem trimStr_eq_self (y : Str)
    (hh : ∀ c, y.head? = some c → isWS c = false)
    (hl : ∀ c, y.getLast? = some c → isWS c = false) : trimStr y = y := by
  unfold trimStr
  rw [dropWhile_eq_self_of_head isWS y hh]
  rw [dropWhile_eq_self_of_head isWS y.reverse
    (fun c hc => hl c (List.head?_reverse y ▸ hc))]
  exact List.reverse_reverse y

theorem cleanStr_idem (l : Str) : cleanStr (cleanStr l) = cleanStr l := by
  have hth := trimStr_head l
  have htl := trimStr_getLast l
  have hyh : ∀ c, (cleanStr l).head? = some c → isWS c = false := by
    intro c hc
    unfold cleanStr collapseWS at hc
    rw [collapseAux_head_false (trimStr l) hth] at hc
    exact hth c hc
  have hyl : ∀ c, (cleanStr l).getLast? = some c → isWS c = false :=
    fun c hc => collapseAux_getLast (trimStr l) htl false c hc
  show collapseAux false (trimStr (cleanStr l)) = cleanStr l
  rw [trimStr_eq_self (cleanStr l) hyh hyl]
  exact collapseAux_eq_self (cleanStr l)
    (fun c hc h => collapseAux_ws_space (trimStr l) false c hc h)
    (collapseAux_chain (trimStr l) false)

/-! ## Claim C1: name handling in `standardize_data` -/

def specUpperChar (c : Char) : Char :=
  if 'a' ≤ c ∧ c ≤ 'z' then Char.ofNat (c.toNat - 32) else c

/-- The name normalization the specification describes: uppercase,
rewrite a `"LAST, FIRST"` name to `"FIRST LAST"`, and strip periods
and commas.  Defined from the specification text only, for comparison:
`standardize_data` itself contains no such step. -/
def specNormalizeName (cs : Str) : Str :=
  let up := cs.map specUpperChar
  let reordered :=
    match splitOnCh ',' up with
    | [lastPart, firstPart] => trimStr firstPart ++ [' '] ++ trimStr lastPart
    | _ => up
  reordered.filter (fun c => !(c = '.' || c = ','))

/-- Counterexample to C1 as stated: `standardize_data` leaves the name
`"Smith, John."` untouched — lower-case letters, the comma and the
period all survive into the final table — while the claimed
normalization would produce `"JOHN SMITH"`. -/
theorem name_normalization_missing :
    (standardize noFuzzy
      [{ name := some (str "Smith, John."), date := some (str "01/02/2020"),
         county := some (str "Lee"), source := some (str "Lee Enjoined"),
         rtype := some (str "Enjoined"), details := some (str "x") }]).map
      Rec.name = [str "Smith, John."] ∧
    specNormalizeName (str "Smith, John.") = str "JOHN SMITH" ∧
    str "Smith, John." ≠ str "JOHN SMITH" := by
  refine ⟨by decide, by decide, by decide⟩

/-- Claim C1 (amended). The only name transformation in
`standardize_data` is whitespace cleaning (trim plus collapsing of
internal runs); it does not uppercase, strip punctuation, or reorder
`"LAST, FIRST"` names.  The cleaning is idempotent, so normalizing an
already-normalized name such as `"JOHN SMITH"` is a no-op, through the
whole pipeline as well. -/
theorem name_cleaning_whitespace_only :
    (∀ s : Str,
      (cleanRow { name := some s, date := none, county := none,
                  source := none, rtype := none, details := none }).name =
        cleanStr s) ∧
    (∀ s : Str, cleanStr (cleanStr s) = cleanStr s) ∧
    (standardize noFuzzy
      [{ name := some (str "JOHN SMITH"), date := some (str "01/02/2020"),
         county := some (str "Lee"), source := some (str "Lee Enjoined"),
         rtype := some (str "Enjoined"), details := some (str "x") }]).map
      Rec.name = [str "JOHN SMITH"] :=
  ⟨fun _ => rfl, cleanStr_idem, by decide⟩

/-! ## Claim C9: required fields of the final table -/

theorem mem_dropWhile_of_not (p : Char → Bool) {c : Char} :
    ∀ l : Str, c ∈ l → p c = false → c ∈ l.dropWhile p := by
  intro l
  induction l with
  | nil => intro h _; simp at h
  | cons a t ih =>
    intro hmem hpc
    by_cases hp : p a = true
    · rw [List.dropWhile_cons, if_pos hp]
      rcases List.mem_cons.mp hmem with rfl | h2
      · exact absurd hp (by simp [hpc])
      · exact ih h2 hpc
    · rw [List.dropWhile_cons, if_neg hp]
      exact hmem

theorem mem_trimStr {c : Char} (l : Str) (hc : c ∈ l) (hw : isWS c = false) :
    c ∈ trimStr l := by
  unfold trimStr
  rw [List.mem_reverse]
  refine mem_dropWhile_of_not isWS _ ?_ hw
  rw [List.mem_reverse]
  exact mem_dropWhile_of_not isWS l hc hw

theorem cleanStr_ne_nil {l : Str} (h : ∃ c ∈ l, isWS c = false) :
    cleanStr l ≠ [] := by
  obtain ⟨c, hc, hw⟩ := h
  have hmem : c ∈ trimStr l := mem_trimStr l hc hw
  exact collapse_false_ne_nil (trimStr l) (List.ne_nil_of_mem hmem)

/-- A cell that will clean to something non-empty: either missing
(defaulted to `N/A`) or containing a non-whitespace character. -/
def hasContent (c : Option Str) : Bool :=
  match c with
  | none => true
  | some s => s.any (fun ch => !isWS ch)

theorem cleanCell_ne_nil {c : Option Str} (h : hasContent c = true) :
    cleanCell c ≠ [] := by
  cases c with
  | none =>
    show cleanStr (str "N/A") ≠ []
    decide
  | some s =>
    refine cleanStr_ne_nil ?_
    simp only [hasContent] at h
    obtain ⟨ch, hm, hp⟩ := List.any_eq_true.mp h
    exact ⟨ch, hm, by simpa using hp⟩

/-- Counterexample to C9 as stated: a Collier row with an empty name
cell flows through normalization and merge into the final table with
an empty name — nothing in the pipeline enforces non-emptiness of
individual values. -/
theorem blank_name_reaches_final_table :
    (standardize noFuzzy (scrapeCollier (str "2026-10-12")
      [[str "Type", str "Name", str "DOB", str "X", str "Case", str "Date"],
       [str "Convicted", [], str "1990", str "x", str "C1", str "01/02/2020"]])).map
      Rec.name = [[]] := by
  decide

/-- Claim C9 (amended). Name, county and source columns are always
present in the final table (missing cells default to `N/A`), and when
every raw record's name, county and source cells contain at least one
non-whitespace character (or are missing), every record of the final
merged table has non-empty name, county and source.  Emptiness of a
provided cell is NOT prevented by the pipeline (see the
counterexample). -/
theorem standardize_required_fields (fuzzy : Str → Option SDate)
    (rows : List RawRec)
    (h : ∀ r ∈ rows, hasContent r.name = true ∧ hasContent r.county = true ∧
      hasContent r.source = true) :
    ∀ out ∈ standardize fuzzy rows,
      out.name ≠ [] ∧ out.county ≠ [] ∧ out.source ≠ [] := by
  intro out hout
  obtain ⟨raw, hraw, rfl⟩ := standardize_mem hout
  obtain ⟨h1, h2, h3⟩ := h raw hraw
  refine ⟨?_, ?_, ?_⟩
  · show cleanCell raw.name ≠ []
    exact cleanCell_ne_nil h1
  · show cleanCell raw.county ≠ []
    exact cleanCell_ne_nil h2
  · show cleanCell raw.source ≠ []
    exact cleanCell_ne_nil h3

/-- Witness for C9 (amended) on a concrete one-record batch. -/
theorem standardize_required_fields_witness :
    (∀ r ∈ [demoRaw], hasContent r.name = true ∧ hasContent r.county = true ∧
      hasContent r.source = true) ∧
    ∀ out ∈ standardize noFuzzy [demoRaw],
      out.name ≠ [] ∧ out.county ≠ [] ∧ out.source ≠ [] := by
  refine ⟨by decide, ?_⟩
  exact standardize_required_fields noFuzzy [demoRaw] (by decide)

end DNAFL
